import Mathlib

/-!
Verification development for `my_streamlink.py`, a single-file tool that
converts a captured curl command into a streamlink command.  The Python
source is shallowly embedded below: pure string transformations become Lean
functions on `String` / `List Char`, the fallible parsing stage returns
`Except ParseError`, and the interactive front end is modelled as a pure
function of the lines available on standard input.
-/

set_option maxRecDepth 20000

deriving instance DecidableEq for Except

/-- The whitespace characters of the shell-like tokenizer
(`shlex.whitespace`, i.e. space, tab, carriage return, newline). -/
def isShWhite (c : Char) : Bool :=
  c = ' ' || c = '\t' || c = '\r' || c = '\n'

/-- The ASCII whitespace characters stripped by Python's `str.strip()`. -/
def isPyWhite (c : Char) : Bool :=
  c = ' ' || c = '\t' || c = '\n' || c = '\r' || c = '\x0b' || c = '\x0c'

/-- Drop leading Python whitespace (left part of `str.strip()`). -/
def trimLeft (l : List Char) : List Char := l.dropWhile isPyWhite

/-- Drop trailing Python whitespace (right part of `str.strip()`). -/
def trimRight (l : List Char) : List Char :=
  (l.reverse.dropWhile isPyWhite).reverse

/-- Python's `str.strip()` on a list of characters. -/
def pyStrip (l : List Char) : List Char := trimRight (trimLeft l)

/-- One step of Python's `str.replace(" \\\n", " ")`: leftmost-first,
non-overlapping replacement, scanning resumes after each replacement.
This is the body of `normalize_newlines` in the source. -/
def repCont : List Char → List Char
  | [] => []
  | [c] => [c]
  | [c, d] => [c, d]
  | c :: d :: e :: rest =>
    if c = ' ' ∧ d = '\\' ∧ e = '\n' then ' ' :: repCont rest
    else c :: repCont (d :: e :: rest)

/-- The function `normalize_newlines` from the source: replace every occurrence of
`" \\\n"` (space, backslash, newline) by a single space. -/
def normalize_newlines (multiline_text : String) : String :=
  ⟨repCont multiline_text.data⟩

/-- Does the text contain the three-character continuation pattern
space-backslash-newline somewhere? -/
def hasRun3 : List Char → Bool
  | c :: d :: e :: rest =>
    (decide (c = ' ' ∧ d = '\\' ∧ e = '\n')) || hasRun3 (d :: e :: rest)
  | _ => false

/-- Does the text contain two overlapping continuation patterns, i.e. the
five-character run space-backslash-newline-backslash-newline? -/
def hasRun5 : List Char → Bool
  | c :: d :: e :: f :: g :: rest =>
    (decide (c = ' ' ∧ d = '\\' ∧ e = '\n' ∧ f = '\\' ∧ g = '\n')) ||
      hasRun5 (d :: e :: f :: g :: rest)
  | _ => false

/-- State of the non-POSIX `shlex` tokenizer as configured by
`shlex.split(s, posix=False)` (whitespace splitting on, comments off,
no punctuation characters): between tokens, inside an unquoted word, or
inside a quoted section opened by quote character `q`. -/
inductive ShState
  | space : ShState
  | word : List Char → ShState
  | quoted : Char → List Char → ShState

/-- The non-POSIX `shlex` token loop.  In the word state quote characters
are ordinary characters; a quoted section keeps its quotes and emits its
token as soon as the closing quote is read; end of input inside a quoted
section is the `ValueError` "No closing quotation", modelled as `none`. -/
def shlexRun : ShState → List Char → Option (List (List Char))
  | .space, [] => some []
  | .word tok, [] => some [tok]
  | .quoted _ _, [] => none
  | .space, c :: rest =>
    if isShWhite c then shlexRun .space rest
    else if c = '\'' || c = '"' then shlexRun (.quoted c [c]) rest
    else shlexRun (.word [c]) rest
  | .word tok, c :: rest =>
    if isShWhite c then (shlexRun .space rest).map (fun ts => tok :: ts)
    else shlexRun (.word (tok ++ [c])) rest
  | .quoted q tok, c :: rest =>
    if c = q then (shlexRun .space rest).map (fun ts => (tok ++ [c]) :: ts)
    else shlexRun (.quoted q (tok ++ [c])) rest

/-- The call `shlex.split(s, posix=False)`; `none` is the tokenizer's `ValueError`. -/
def shlexSplit (s : String) : Option (List String) :=
  (shlexRun .space s.data).map (List.map String.mk)

/-- The fixed exclusion list `exclude_headers` from the source. -/
def exclude_headers : List String := ["sec-ch-ua", "user-agent"]

/-- Errors of the embedded pipeline: the tokenizer's unclosed-quote
`ValueError`, the argparse error/exit, the `ValueError` raised by
unpacking `curl_header.split(":", 1)` when the header has no colon, and
`EOFError` from `input()` at end of input. -/
inductive ParseError
  | shlexError : ParseError
  | argError : ParseError
  | headerNoColon : ParseError
  | eofError : ParseError
deriving DecidableEq

/-- Result of `parser.parse_args` for the argparse parser configured in the
source: positionals `command` and `url`, repeatable `-H`/`--header`, and
the boolean `--compressed` flag. -/
structure CurlArgs where
  command : String
  url : String
  header : List String
  compressed : Bool
deriving DecidableEq

/-- Intermediate state while scanning the token list: positionals seen,
header values seen, the `--compressed` flag, and whether a bare
`-H`/`--header` is still waiting for its value. -/
structure ArgState where
  pos : List String
  hdrs : List String
  comp : Bool
  pending : Bool
deriving DecidableEq

/-- Does `pat` occur at the start of `l`? -/
def listStarts : List Char → List Char → Bool
  | [], _ => true
  | _ :: _, [] => false
  | p :: ps, c :: cs => p = c && listStarts ps cs

/-- argparse's negative-number shape (regex `-\d+` or `-\d*\.\d+`); such
tokens are not treated as option strings since the parser has no
numeric-looking option names. -/
def isNegNum (t : List Char) : Bool :=
  match t with
  | '-' :: rest =>
    (!rest.isEmpty && rest.all Char.isDigit) ||
      (match rest.drop (rest.takeWhile Char.isDigit).length with
       | '.' :: frac => !frac.isEmpty && frac.all Char.isDigit
       | _ => false)
  | _ => false

/-- Is the token classified by argparse as an option string (starts with
`-`, is not a lone `-`, and does not look like a negative number)? -/
def isOptionLike (t : String) : Bool :=
  match t.data with
  | [] => false
  | ['-'] => false
  | '-' :: _ => !isNegNum t.data
  | _ => false

/-- One argparse scanning step.  Models the source's parser over the
fragment without the `--` pseudo-argument and without long-option prefix
abbreviation, neither of which the tool's inputs use: a pending bare
`-H`/`--header` consumes the next non-option token as its value (an
option-like token there is argparse's "expected one argument" error);
`-H`/`--header` starts a pending header; `--compressed` sets the flag;
`--header=v` and `-Hv` carry an attached value; any other option-like
token is unrecognized; everything else is a positional. -/
def argStep (s : ArgState) (t : String) : Except ParseError ArgState :=
  if s.pending then
    if isOptionLike t then .error .argError
    else .ok { s with hdrs := s.hdrs ++ [t], pending := false }
  else if t = "-H" ∨ t = "--header" then .ok { s with pending := true }
  else if t = "--compressed" then .ok { s with comp := true }
  else if listStarts "--header=".data t.data then
    .ok { s with hdrs := s.hdrs ++ [⟨t.data.drop 9⟩] }
  else if listStarts "-H".data t.data ∧ 2 < t.data.length then
    .ok { s with hdrs := s.hdrs ++ [⟨t.data.drop 2⟩] }
  else if isOptionLike t then .error .argError
  else .ok { s with pos := s.pos ++ [t] }

/-- Run the argparse scan over a token list. -/
def runArgs : ArgState → List String → Except ParseError ArgState
  | s, [] => .ok s
  | s, t :: rest =>
    match argStep s t with
    | .error e => .error e
    | .ok s2 => runArgs s2 rest

/-- The scan starts with no positionals, no headers, flag off. -/
def initArgState : ArgState := ⟨[], [], false, false⟩

/-- End of the argparse scan: a still-pending `-H` is an error, and the
two required positionals `command` and `url` must have been seen exactly
(a missing one is "required", an extra one "unrecognized arguments"). -/
def finishArgs (s : ArgState) : Except ParseError CurlArgs :=
  if s.pending then .error .argError
  else
    match s.pos with
    | [c, u] => .ok ⟨c, u, s.hdrs, s.comp⟩
    | _ => .error .argError

/-- The call `parser.parse_args(tokens)` for the parser configured in the source. -/
def parseArgs (toks : List String) : Except ParseError CurlArgs :=
  match runArgs initArgState toks with
  | .error e => .error e
  | .ok s => finishArgs s

/-- Python's `s.split(":", 1)` when a colon is present: the part before the
first colon and the part after it; `none` when there is no colon (where
the source's two-variable unpacking raises `ValueError`). -/
def splitFirstColon : List Char → Option (List Char × List Char)
  | [] => none
  | c :: rest =>
    if c = ':' then some ([], rest)
    else
      match splitFirstColon rest with
      | none => none
      | some (a, b) => some (c :: a, b)

/-- Strip exactly one leading single quote if present
(`if s.startswith("'"): s = s[1:]`). -/
def stripLeadQuoteL (l : List Char) : List Char :=
  match l with
  | '\'' :: rest => rest
  | _ => l

/-- Strip exactly one trailing single quote if present
(`if s.endswith("'"): s = s[:-1]`). -/
def stripTrailQuoteL (l : List Char) : List Char :=
  match l.getLast? with
  | some '\'' => l.dropLast
  | _ => l

/-- The per-header body of the loop in `parse_context`: split on the first
colon (no colon is the fatal `ValueError`), strip one leading quote from
the name and one trailing quote from the value, wrap the stripped value in
single quotes when it contains a space or a double quote, and return the
name together with the finally stripped value. -/
def processHeader (h : String) : Except ParseError (String × String) :=
  match splitFirstColon h.data with
  | none => .error .headerNoColon
  | some (kRaw, vRaw) =>
    let k := stripLeadQuoteL kRaw
    let v := stripTrailQuoteL vRaw
    let vs := pyStrip v
    let v2 := if vs.contains ' ' || vs.contains '"' then '\'' :: (vs ++ ['\'']) else v
    .ok (⟨k⟩, ⟨pyStrip v2⟩)

/-- ASCII lowercasing of one character (`str.lower` on the ASCII range,
which is all a header name contains). -/
def lowerChar (c : Char) : Char :=
  if 'A' ≤ c ∧ c ≤ 'Z' then Char.ofNat (c.toNat + 32) else c

/-- Python's `str.lower()` on a string. -/
def lowerStr (s : String) : String := ⟨s.data.map lowerChar⟩

/-- An `OrderedDict` assignment `m[k] = v`: if the key is present its value is
replaced in place (the key keeps its position), otherwise the pair is
appended at the end. -/
def odInsert (m : List (String × String)) (k v : String) : List (String × String) :=
  if m.any (fun p => p.1 = k) then m.map (fun p => if p.1 = k then (k, v) else p)
  else m ++ [(k, v)]

/-- One loop iteration after `processHeader`: drop the header when its
lowercased name is in `exclude_headers`, otherwise assign it into the
ordered mapping. -/
def insertStep (m : List (String × String)) (kv : String × String) :
    List (String × String) :=
  if lowerStr kv.1 ∈ exclude_headers then m else odInsert m kv.1 kv.2

/-- The header loop of `parse_context` over the accumulated mapping. -/
def headerFoldAux (m : List (String × String)) :
    List String → Except ParseError (List (String × String))
  | [] => .ok m
  | h :: rest =>
    match processHeader h with
    | .error e => .error e
    | .ok kv => headerFoldAux (insertStep m kv) rest

/-- The header loop of `parse_context`, starting from the empty mapping. -/
def headerFold (hs : List String) : Except ParseError (List (String × String)) :=
  headerFoldAux [] hs

/-- The `ParsedContext` named tuple: the url and the ordered header map. -/
structure ParsedContext where
  url : String
  headers : List (String × String)
deriving DecidableEq

/-- The url post-processing in `parse_context`: strip one leading single
quote, then one trailing single quote from the result. -/
def stripUrlQuotes (u : String) : String :=
  ⟨stripTrailQuoteL (stripLeadQuoteL u.data)⟩

/-- The part of `parse_context` after tokenization: argparse the tokens,
unquote the url, run the header loop. -/
def contextOfTokens (toks : List String) : Except ParseError ParsedContext :=
  match parseArgs toks with
  | .error e => .error e
  | .ok a =>
    match headerFold a.header with
    | .error e => .error e
    | .ok hs => .ok ⟨stripUrlQuotes a.url, hs⟩

/-- The function `parse_context` from the source: normalize line continuations,
tokenize shell-style, parse arguments and build the `ParsedContext`. -/
def parse_context (curl_command : String) : Except ParseError ParsedContext :=
  match shlexSplit (normalize_newlines curl_command) with
  | none => .error .shlexError
  | some toks => contextOfTokens toks

/-- Python's `" ".join` on a list of strings. -/
def joinSep : List String → String
  | [] => ""
  | [s] => s
  | s :: rest => s ++ " " ++ joinSep rest

/-- The function `generate_streamlink_command` from the source: the tokens
`streamlink`, the url, `best`, then `--http-header` and `key=value` for
each header in order, joined by single spaces. -/
def generate_streamlink_command (parsed_context : ParsedContext) : String :=
  joinSep (["streamlink", parsed_context.url, "best"] ++
    (parsed_context.headers.map
      (fun kv => ["--http-header", kv.1 ++ "=" ++ kv.2])).flatten)

/-- The parser stage followed by the generator stage. -/
def curlToStreamlink (cmd : String) : Except ParseError String :=
  match parse_context cmd with
  | .error e => .error e
  | .ok ctx => .ok (generate_streamlink_command ctx)

/-- What an interactive run produces: the lines printed by `print` (the
prompts issued through `input` are not modelled) and the clipboard write. -/
structure RunResult where
  printed : List String
  clip : Option String
deriving DecidableEq

/-- Python's `line.split("\n")[0]`: the characters before the first
newline (also how `input()` strips the trailing newline of a read line). -/
def takeLine (l : String) : String :=
  ⟨l.data.takeWhile (fun c => c ≠ '\n')⟩

/-- Python's `"".join` on a list of strings. -/
def joinAll : List String → String
  | [] => ""
  | s :: rest => s ++ joinAll rest

/-- The `main` function, modelled over the already-read mode-prompt
response and the remaining raw standard-input lines (each line carrying
its trailing newline, as `readlines` returns them).  Mode `"0"` reads the
url line, drops the first of the remaining lines (`readlines()[1:]`) and
builds `curl '<url>'` followed by `-H '<line>'` pieces joined with no
separator; mode `"1"` joins the remaining lines verbatim; any other
response prints `not proper input` and returns.  A successful run prints
the streamlink command and copies it to the clipboard. -/
def mainModel (inputType : String) (stdin : List String) :
    Except ParseError RunResult :=
  if inputType = "0" then
    match stdin with
    | [] => .error .eofError
    | urlLine :: rest =>
      let url := takeLine urlLine
      let cmd := joinAll (("curl '" ++ url ++ "'") ::
        (rest.drop 1).map (fun l => "-H '" ++ takeLine l ++ "'"))
      match curlToStreamlink cmd with
      | .error e => .error e
      | .ok slc =>
        .ok ⟨["Input request headers (End: Ctrl-z)", slc], some slc⟩
  else if inputType = "1" then
    match curlToStreamlink (joinAll stdin) with
    | .error e => .error e
    | .ok slc => .ok ⟨["Input curl command (End: Ctrl-z)", slc], some slc⟩
  else .ok ⟨["not proper input"], none⟩

/-- The fold of `OrderedDict` assignments used by the header loop,
starting from the empty mapping. -/
def insertAll (l : List (String × String)) : List (String × String) :=
  l.foldl (fun m kv => odInsert m kv.1 kv.2) []

/-- C1: for the input curl command
`curl 'http://example.com' -H 'Accept: text/html' -H 'User-Agent: x'`,
parsing with `parse_context` and generating with
`generate_streamlink_command` yields exactly
`streamlink http://example.com best --http-header Accept=text/html`. -/
theorem c1_scenario1 :
    curlToStreamlink
        "curl 'http://example.com' -H 'Accept: text/html' -H 'User-Agent: x'" =
      .ok "streamlink http://example.com best --http-header Accept=text/html" := by
  decide

/-- C9: when the mode prompt receives anything other than `"0"` or `"1"`,
the run prints only the error message, produces no streamlink command, no
clipboard write, and returns normally. -/
theorem c9_invalid_mode (t : String) (stdin : List String)
    (h0 : t ≠ "0") (h1 : t ≠ "1") :
    mainModel t stdin = .ok ⟨["not proper input"], none⟩ := by
  unfold mainModel
  rw [if_neg h0, if_neg h1]

/-- Witness for C9 at the concrete mode response `"2"`. -/
theorem c9_invalid_mode_witness :
    mainModel "2" ["x\n"] = .ok ⟨["not proper input"], none⟩ :=
  c9_invalid_mode "2" ["x\n"] (by decide) (by decide)

/-- C10: header de-duplication is case-sensitive although exclusion is
case-insensitive: `Accept` and `accept` stay distinct keys and the
generated command emits two separate `--http-header` pairs. -/
theorem c10_case_sensitive_keys :
    parse_context "curl 'http://example.com' -H 'Accept: a' -H 'accept: b'" =
        .ok ⟨"http://example.com", [("Accept", "a"), ("accept", "b")]⟩ ∧
      curlToStreamlink "curl 'http://example.com' -H 'Accept: a' -H 'accept: b'" =
        .ok "streamlink http://example.com best --http-header Accept=a --http-header accept=b" := by
  constructor
  · decide
  · decide

/-- C5 fails on the code: in mode `"0"` the front end drops the first
line read after the url (`readlines()[1:]`), so with the header lines
consisting of exactly `Accept: */*` the synthesized curl command has no
`-H` at all and the printed command is `streamlink http://e.com best`,
not the claimed `streamlink http://e.com best --http-header Accept=*/*`. -/
theorem c5_counterexample :
    mainModel "0" ["http://e.com\n", "Accept: */*\n"] =
        .ok ⟨["Input request headers (End: Ctrl-z)", "streamlink http://e.com best"],
          some "streamlink http://e.com best"⟩ ∧
      ¬ mainModel "0" ["http://e.com\n", "Accept: */*\n"] =
        .ok ⟨["Input request headers (End: Ctrl-z)",
            "streamlink http://e.com best --http-header Accept=*/*"],
          some "streamlink http://e.com best --http-header Accept=*/*"⟩ := by
  constructor
  · decide
  · decide

/-- C5 amended: in mode `"0"`, with url `http://e.com` and the header
lines consisting of one initial line (which the front end discards) and
then `Accept: */*`, the run prints and copies
`streamlink http://e.com best --http-header Accept=*/*`. -/
theorem c5_amended :
    mainModel "0" ["http://e.com\n", "GET / HTTP/1.1\n", "Accept: */*\n"] =
      .ok ⟨["Input request headers (End: Ctrl-z)",
          "streamlink http://e.com best --http-header Accept=*/*"],
        some "streamlink http://e.com best --http-header Accept=*/*"⟩ := by
  decide

/-- Every pair in the mapping after an `OrderedDict` assignment is either
an original pair or the assigned pair. -/
theorem mem_odInsert {m : List (String × String)} {k v : String}
    {p : String × String} (hp : p ∈ odInsert m k v) : p ∈ m ∨ p = (k, v) := by
  unfold odInsert at hp
  split at hp
  · rcases List.mem_map.mp hp with ⟨q, hq, hEq⟩
    by_cases h : q.1 = k
    · right
      rw [if_pos h] at hEq
      exact hEq.symm
    · left
      rw [if_neg h] at hEq
      exact hEq ▸ hq
  · rcases List.mem_append.mp hp with h | h
    · exact Or.inl h
    · right
      simpa using h

/-- The header loop never stores a header whose lowercased name is in the
exclusion list, given that the accumulator does not hold one either. -/
theorem headerFoldAux_excluded (hs : List String) :
    ∀ m r, (∀ p ∈ m, lowerStr p.1 ∉ exclude_headers) →
      headerFoldAux m hs = .ok r → ∀ p ∈ r, lowerStr p.1 ∉ exclude_headers := by
  induction hs with
  | nil =>
    intro m r hm h
    unfold headerFoldAux at h
    cases h
    exact hm
  | cons h rest ih =>
    intro m r hm hfold
    unfold headerFoldAux at hfold
    cases hph : processHeader h with
    | error e =>
      rw [hph] at hfold
      exact absurd hfold (by simp)
    | ok kv =>
      rw [hph] at hfold
      refine ih _ _ ?_ hfold
      intro p hp
      unfold insertStep at hp
      split at hp
      · exact hm p hp
      · next hcond =>
        rcases mem_odInsert hp with h1 | h1
        · exact hm p h1
        · rw [h1]
          exact hcond

/-- C2: for every curl command, a header whose name lowercases to
`sec-ch-ua` or `user-agent` never appears in the `ParsedContext` produced
by `parse_context`, regardless of its value (hence no such header reaches
the generated command). -/
theorem c2_excluded_absent (cmd : String) (ctx : ParsedContext) (k v : String)
    (hp : parse_context cmd = .ok ctx)
    (hk : lowerStr k = "sec-ch-ua" ∨ lowerStr k = "user-agent") :
    (k, v) ∉ ctx.headers := by
  intro hmem
  unfold parse_context at hp
  split at hp
  · exact absurd hp (by simp)
  · unfold contextOfTokens at hp
    split at hp
    · exact absurd hp (by simp)
    · split at hp
      · exact absurd hp (by simp)
      · next hs hfold =>
        cases hp
        have hinv := headerFoldAux_excluded _ _ _ (by simp) hfold (k, v) hmem
        rcases hk with h | h <;> rw [h] at hinv <;> exact hinv (by decide)

/-- Witness for C2: in scenario 1 the `User-Agent` header is absent from
the parsed context. -/
theorem c2_excluded_absent_witness :
    ("User-Agent", "x") ∉
      ({ url := "http://example.com", headers := [("Accept", "text/html")] } :
        ParsedContext).headers :=
  c2_excluded_absent
    "curl 'http://example.com' -H 'Accept: text/html' -H 'User-Agent: x'"
    _ "User-Agent" "x" (by decide) (Or.inr (by decide))

/-- The only error the per-header processing can raise is the missing
colon (the `ValueError` of the two-variable unpacking). -/
theorem processHeader_error {h : String} {e : ParseError}
    (hp : processHeader h = .error e) : e = .headerNoColon := by
  unfold processHeader at hp
  split at hp
  · cases hp
    rfl
  · exact absurd hp (by simp)

/-- A header that processes successfully has a colon. -/
theorem processHeader_ok_colon {h : String} {kv : String × String}
    (hp : processHeader h = .ok kv) : splitFirstColon h.data ≠ none := by
  unfold processHeader at hp
  split at hp
  · exact absurd hp (by simp)
  · next heq => simp [heq]

/-- If any header token in the list lacks a colon, the header loop fails
with the missing-colon error, whatever the accumulator. -/
theorem headerFoldAux_noColon (hs : List String) :
    ∀ m h0, h0 ∈ hs → splitFirstColon h0.data = none →
      headerFoldAux m hs = .error .headerNoColon := by
  induction hs with
  | nil =>
    intro m h0 hmem
    exact absurd hmem (by simp)
  | cons h rest ih =>
    intro m h0 hmem hnone
    unfold headerFoldAux
    cases hph : processHeader h with
    | error e =>
      rw [processHeader_error hph]
    | ok kv =>
      rcases List.mem_cons.mp hmem with h1 | h1
      · rw [h1] at hnone
        have := processHeader_ok_colon hph
        exact absurd hnone this
      · exact ih _ h0 h1 hnone

/-- C6: whenever the tokenizer and the argument parser accept the curl
command but one of its header tokens lacks a colon, `parse_context` fails
with the missing-colon `ValueError` and no streamlink command is
produced. -/
theorem c6_no_colon_fatal (cmd : String) (toks : List String) (a : CurlArgs)
    (h : String) (h1 : shlexSplit (normalize_newlines cmd) = some toks)
    (h2 : parseArgs toks = .ok a) (h3 : h ∈ a.header)
    (h4 : splitFirstColon h.data = none) :
    parse_context cmd = .error .headerNoColon ∧
      curlToStreamlink cmd = .error .headerNoColon := by
  have hfold : headerFold a.header = .error .headerNoColon :=
    headerFoldAux_noColon a.header [] h h3 h4
  have hpc : parse_context cmd = .error .headerNoColon := by
    simp only [parse_context, h1, contextOfTokens, h2, hfold]
  refine ⟨hpc, ?_⟩
  unfold curlToStreamlink
  rw [hpc]

/-- Witness for C6: scenario 4 with the header token `BadHeaderNoColon`. -/
theorem c6_no_colon_fatal_witness :
    parse_context "curl 'http://x' -H BadHeaderNoColon" = .error .headerNoColon ∧
      curlToStreamlink "curl 'http://x' -H BadHeaderNoColon" =
        .error .headerNoColon :=
  c6_no_colon_fatal "curl 'http://x' -H BadHeaderNoColon"
    ["curl", "'http://x'", "-H", "BadHeaderNoColon"]
    ⟨"curl", "'http://x'", ["BadHeaderNoColon"], false⟩
    "BadHeaderNoColon" (by decide) (by decide) (by decide) (by decide)

theorem repCont_head (c : Char) (l : List Char) : ∃ t, repCont (c :: l) = c :: t := by
  cases l with
  | nil => exact ⟨[], rfl⟩
  | cons d l2 =>
    cases l2 with
    | nil => exact ⟨[d], rfl⟩
    | cons e r =>
      unfold repCont
      by_cases hp : c = ' ' ∧ d = '\\' ∧ e = '\n'
      · rw [if_pos hp]
        exact ⟨repCont r, by rw [hp.1]⟩
      · rw [if_neg hp]
        exact ⟨_, rfl⟩

theorem repCont_startPair (m : List Char) (h : ∃ t, repCont m = '\\' :: '\n' :: t) :
    ∃ u, m = '\\' :: '\n' :: u := by
  rcases h with ⟨t, ht⟩
  rcases m with _ | ⟨a, _ | ⟨b, l⟩⟩
  · simp [repCont] at ht
  · simp [repCont] at ht
  · rcases l with _ | ⟨c, r⟩
    · unfold repCont at ht
      injection ht with h1 ht2
      injection ht2 with h2 _
      exact ⟨[], by rw [h1, h2]⟩
    · unfold repCont at ht
      by_cases hp : a = ' ' ∧ b = '\\' ∧ c = '\n'
      · rw [if_pos hp] at ht
        injection ht with h1 _
        exact absurd h1 (by decide)
      · rw [if_neg hp] at ht
        injection ht with h1 ht2
        obtain ⟨t2, ht3⟩ := repCont_head b (c :: r)
        rw [ht3] at ht2
        injection ht2 with h2 _
        exact ⟨c :: r, by rw [h1, h2]⟩

theorem hasRun5_tail (c : Char) (l : List Char) (h : hasRun5 (c :: l) = false) :
    hasRun5 l = false := by
  rcases l with _ | ⟨d, _ | ⟨e, _ | ⟨f, _ | ⟨g, r⟩⟩⟩⟩
  · rfl
  · rfl
  · rfl
  · rfl
  · unfold hasRun5 at h
    exact (Bool.or_eq_false_iff.mp h).2

theorem hasRun3_false_repCont_id (l : List Char) (h : hasRun3 l = false) :
    repCont l = l := by
  induction l using repCont.induct with
  | case1 => rfl
  | case2 c => rfl
  | case3 c d => rfl
  | case4 c d e rest hp ih =>
    exact absurd h (by simp [hasRun3, hp])
  | case5 c d e rest hp ih =>
    unfold repCont
    rw [if_neg hp]
    unfold hasRun3 at h
    rw [ih (Bool.or_eq_false_iff.mp h).2]

theorem hasRun5_false_repCont (l : List Char) (h : hasRun5 l = false) :
    hasRun3 (repCont l) = false := by
  induction l using repCont.induct with
  | case1 => rfl
  | case2 c => rfl
  | case3 c d => rfl
  | case4 c d e rest hp ih =>
    have h5 : hasRun5 rest = false :=
      hasRun5_tail _ _ (hasRun5_tail _ _ (hasRun5_tail _ _ h))
    have ih' := ih h5
    unfold repCont
    rw [if_pos hp]
    rcases hr : repCont rest with _ | ⟨x, _ | ⟨y, z⟩⟩
    · rfl
    · rfl
    · unfold hasRun3
      rw [Bool.or_eq_false_iff]
      constructor
      · by_cases hxy : x = '\\' ∧ y = '\n'
        · exfalso
          have hsp : ∃ u, rest = '\\' :: '\n' :: u :=
            repCont_startPair rest ⟨z, by rw [hr, hxy.1, hxy.2]⟩
          rcases hsp with ⟨u, hu⟩
          rw [hp.1, hp.2.1, hp.2.2, hu] at h
          unfold hasRun5 at h
          simp at h
        · simp [hxy]
      · rw [hr] at ih'
        exact ih'
  | case5 c d e rest hp ih =>
    have h5 : hasRun5 (d :: e :: rest) = false := hasRun5_tail _ _ h
    have ih' := ih h5
    unfold repCont
    rw [if_neg hp]
    obtain ⟨t2, ht2⟩ := repCont_head d (e :: rest)
    rw [ht2]
    rw [ht2] at ih'
    rcases t2 with _ | ⟨y, z⟩
    · rfl
    · unfold hasRun3
      rw [Bool.or_eq_false_iff]
      refine ⟨?_, ih'⟩
      by_cases hcdy : c = ' ' ∧ d = '\\' ∧ y = '\n'
      · exfalso
        have hsp : ∃ u, d :: e :: rest = '\\' :: '\n' :: u :=
          repCont_startPair _ ⟨z, by rw [ht2, hcdy.2.1, hcdy.2.2]⟩
        rcases hsp with ⟨u, hu⟩
        injection hu with hd hu2
        injection hu2 with he _
        exact hp ⟨hcdy.1, hd, he⟩
      · simp [hcdy]

/-- C4 fails on the code: on the five characters
space-backslash-newline-backslash-newline a second pass of the
normalizer still finds (and collapses) a continuation that the first
pass left behind, so applying the normalizer twice differs from applying
it once. -/
theorem c4_counterexample :
    normalize_newlines (normalize_newlines " \\\n\\\n") ≠
      normalize_newlines " \\\n\\\n" := by
  decide

/-- C4 amended: the line-continuation normalizer is idempotent on every
input that contains no overlapping continuations (no occurrence of the
five-character run space-backslash-newline-backslash-newline). -/
theorem c4_idempotent_no_overlap (s : String) (h : hasRun5 s.data = false) :
    normalize_newlines (normalize_newlines s) = normalize_newlines s := by
  have h2 : repCont (repCont s.data) = repCont s.data :=
    hasRun3_false_repCont_id _ (hasRun5_false_repCont _ h)
  unfold normalize_newlines
  exact congrArg String.mk h2

/-- Witness for the amended C4 at a concrete input with one
line continuation. -/
theorem c4_idempotent_no_overlap_witness :
    hasRun5 ("a \\\nb".data) = false ∧
      normalize_newlines (normalize_newlines "a \\\nb") =
        normalize_newlines "a \\\nb" :=
  ⟨by decide, c4_idempotent_no_overlap "a \\\nb" (by decide)⟩

theorem pyStrip_wrapped (t : List Char) :
    pyStrip ('\'' :: (t ++ ['\''])) = '\'' :: (t ++ ['\'']) := by
  have h1 : isPyWhite '\'' = false := by decide
  unfold pyStrip trimLeft trimRight
  rw [List.dropWhile_cons_of_neg (by simp [h1])]
  have h2 : ('\'' :: (t ++ ['\''])).reverse = '\'' :: (t.reverse ++ ['\'']) := by
    simp
  rw [h2]
  rw [List.dropWhile_cons_of_neg (by simp [h1])]
  simp

theorem c3_value_quoting :
    (∀ (h : String) (kRaw vRaw t : List Char),
        splitFirstColon h.data = some (kRaw, vRaw) →
        t = pyStrip (stripTrailQuoteL vRaw) →
        (t.contains ' ' = true →
          processHeader h = .ok (⟨stripLeadQuoteL kRaw⟩, ⟨'\'' :: (t ++ ['\''])⟩)) ∧
        (t.contains ' ' = false → t.contains '"' = false →
          processHeader h = .ok (⟨stripLeadQuoteL kRaw⟩, ⟨t⟩))) ∧
      curlToStreamlink "curl 'http://example.com' -H 'X-Test: a b'" =
        .ok "streamlink http://example.com best --http-header X-Test='a b'" := by
  constructor
  · intro h kRaw vRaw t hsplit ht
    constructor
    · intro hsp
      simp only [processHeader, hsplit]
      rw [← ht, hsp]
      simp only [Bool.true_or, if_true]
      rw [pyStrip_wrapped]
    · intro hsp hdq
      simp only [processHeader, hsplit]
      rw [← ht, hsp, hdq]
      simp only [Bool.or_self, if_neg Bool.false_ne_true]
      rw [ht]
  · decide

/-- Witness for C3 at the header token of scenario 2. -/
theorem c3_value_quoting_witness :
    processHeader "'X-Test: a b'" = .ok ("X-Test", "'a b'") := by
  have h := (c3_value_quoting.1 "'X-Test: a b'" "'X-Test".data " a b'".data
      (pyStrip (stripTrailQuoteL " a b'".data)) (by decide) rfl).1 (by decide)
  rw [h]
  decide

theorem runArgs_append (l1 l2 : List String) :
    ∀ s, runArgs s (l1 ++ l2) =
      match runArgs s l1 with
      | .error e => .error e
      | .ok s1 => runArgs s1 l2 := by
  induction l1 with
  | nil => intro s; rfl
  | cons t rest ih =>
    intro s
    simp only [List.cons_append, runArgs]
    cases ha : argStep s t with
    | error e => rfl
    | ok s2 => exact ih s2

/-- A successful argparse step on a token other than a bare `-H` or
`--header` leaves no header pending. -/
theorem argStep_pending_false {s : ArgState} {t : String} {s2 : ArgState}
    (h : argStep s t = .ok s2) (h1 : t ≠ "-H") (h2 : t ≠ "--header") :
    s2.pending = false := by
  unfold argStep at h
  by_cases hp : s.pending = true
  · rw [if_pos hp] at h
    by_cases ho : isOptionLike t = true
    · rw [if_pos ho] at h
      exact absurd h (by simp)
    · rw [if_neg ho] at h
      cases h
      rfl
  · have hfalse : s.pending = false := by
      exact Bool.not_eq_true s.pending ▸ hp
    rw [if_neg hp] at h
    have hH : ¬(t = "-H" ∨ t = "--header") := by
      intro hc
      rcases hc with hc | hc
      · exact h1 hc
      · exact h2 hc
    rw [if_neg hH] at h
    split at h
    · cases h
      exact hfalse
    · split at h
      · cases h
        exact hfalse
      · split at h
        · cases h
          exact hfalse
        · split at h
          · exact absurd h (by simp)
          · cases h
            exact hfalse

/-- After successfully scanning a nonempty token list whose last token is
not a bare `-H`/`--header`, no header is pending. -/
theorem runArgs_last_pending (l : List String) :
    ∀ s s1, runArgs s l = .ok s1 → l ≠ [] →
      l.getLast? ≠ some "-H" → l.getLast? ≠ some "--header" →
      s1.pending = false := by
  induction l with
  | nil =>
    intro s s1 _ hne _ _
    exact absurd rfl hne
  | cons t rest ih =>
    intro s s1 hrun hne hH hHd
    have hrun2 : (match argStep s t with
        | Except.error e => (Except.error e : Except ParseError ArgState)
        | Except.ok s2 => runArgs s2 rest) = .ok s1 := hrun
    cases ha : argStep s t with
    | error e =>
      rw [ha] at hrun2
      exact absurd hrun2 (by simp)
    | ok s2 =>
      rw [ha] at hrun2
      cases rest with
      | nil =>
        cases hrun2
        refine argStep_pending_false ha ?_ ?_
        · intro he
          exact hH (by rw [he]; rfl)
        · intro he
          exact hHd (by rw [he]; rfl)
      | cons u rest2 =>
        have hlast : (t :: u :: rest2).getLast? = (u :: rest2).getLast? := by
          simp [List.getLast?_cons_cons]
        rw [hlast] at hH hHd
        exact ih s2 s1 hrun2 (by simp) hH hHd

theorem argStep_comp (p h : List String) (c pd : Bool) (t : String) :
    argStep ⟨p, h, true, pd⟩ t =
      (argStep ⟨p, h, c, pd⟩ t).map (fun a => { a with comp := true }) := by
  unfold argStep
  by_cases h1 : pd = true <;>
    by_cases ho : isOptionLike t = true <;>
      by_cases hH : t = "-H" ∨ t = "--header" <;>
        by_cases hc : t = "--compressed" <;>
          by_cases hs1 : listStarts "--header=".data t.data = true <;>
            by_cases hs2 : listStarts "-H".data t.data = true ∧ 2 < t.data.length <;>
              (simp [h1, ho, hH, hc, hs1, hs2, Except.map] <;> split <;> simp)

/-- Turning on the `--compressed` flag in the scan state changes nothing
but the flag in the scan's outcome. -/
theorem runArgs_comp (l : List String) :
    ∀ (p h : List String) (c pd : Bool) (s2 : ArgState),
      runArgs ⟨p, h, c, pd⟩ l = .ok s2 →
      runArgs ⟨p, h, true, pd⟩ l = .ok { s2 with comp := true } := by
  induction l with
  | nil =>
    intro p h c pd s2 hr
    cases hr
    rfl
  | cons t rest ih =>
    intro p h c pd s2 hr
    have hr2 : (match argStep ⟨p, h, c, pd⟩ t with
        | Except.error e => (Except.error e : Except ParseError ArgState)
        | Except.ok s3 => runArgs s3 rest) = .ok s2 := hr
    cases ha : argStep ⟨p, h, c, pd⟩ t with
    | error e =>
      rw [ha] at hr2
      exact absurd hr2 (by simp)
    | ok s3 =>
      rw [ha] at hr2
      have hstep := argStep_comp p h c pd t
      rw [ha] at hstep
      simp only [Except.map] at hstep
      simp only [runArgs, hstep]
      obtain ⟨p3, h3, c3, pd3⟩ := s3
      exact ih p3 h3 c3 pd3 s2 hr2

/-- C7: inserting the `--compressed` flag anywhere between the tokens of
a successfully parsed curl command (except directly after a bare
`-H`/`--header`, where argparse would read it as the header's missing
value) leaves the resulting `ParsedContext` — and hence the generated
streamlink command — unchanged. -/
theorem c7_compressed_noop (pre post : List String) (ctx : ParsedContext)
    (hok : contextOfTokens (pre ++ post) = .ok ctx)
    (hH : pre.getLast? ≠ some "-H") (hHd : pre.getLast? ≠ some "--header") :
    contextOfTokens (pre ++ "--compressed" :: post) = .ok ctx := by
  obtain ⟨a, hs, hpa, hhf, hctx⟩ :
      ∃ a hs, parseArgs (pre ++ post) = .ok a ∧ headerFold a.header = .ok hs ∧
        ctx = ⟨stripUrlQuotes a.url, hs⟩ := by
    unfold contextOfTokens at hok
    cases hpa : parseArgs (pre ++ post) with
    | error e =>
      rw [hpa] at hok
      exact absurd hok (by simp)
    | ok a =>
      rw [hpa] at hok
      simp only at hok
      cases hhf : headerFold a.header with
      | error e =>
        rw [hhf] at hok
        exact absurd hok (by simp)
      | ok hs =>
        rw [hhf] at hok
        cases hok
        exact ⟨a, hs, rfl, hhf, rfl⟩
  obtain ⟨s2, hrun, hfin⟩ : ∃ s2, runArgs initArgState (pre ++ post) = .ok s2 ∧
      finishArgs s2 = .ok a := by
    unfold parseArgs at hpa
    cases hr : runArgs initArgState (pre ++ post) with
    | error e =>
      rw [hr] at hpa
      exact absurd hpa (by simp)
    | ok s2 =>
      rw [hr] at hpa
      exact ⟨s2, rfl, hpa⟩
  rw [runArgs_append] at hrun
  cases hpre : runArgs initArgState pre with
  | error e =>
    rw [hpre] at hrun
    exact absurd hrun (by simp)
  | ok s1 =>
    rw [hpre] at hrun
    have hpend : s1.pending = false := by
      cases pre with
      | nil =>
        cases hpre
        rfl
      | cons x xs =>
        exact runArgs_last_pending (x :: xs) initArgState s1 hpre (by simp) hH hHd
    obtain ⟨p1, hl1, c1, pd1⟩ := s1
    have hpd1 : pd1 = false := hpend
    have hstep : argStep ⟨p1, hl1, c1, pd1⟩ "--compressed" =
        .ok ⟨p1, hl1, true, pd1⟩ := by
      simp [argStep, hpd1]
    have hcomp := runArgs_comp post p1 hl1 c1 pd1 s2 hrun
    obtain ⟨ac, au, ah, acomp⟩ := a
    obtain ⟨p2, h2l, c2, pd2⟩ := s2
    have hfin2 : finishArgs ⟨p2, h2l, true, pd2⟩ =
        .ok ⟨ac, au, ah, true⟩ := by
      unfold finishArgs at hfin ⊢
      simp only at hfin ⊢
      split at hfin
      · exact absurd hfin (by simp)
      · next hpd =>
        rw [if_neg hpd]
        split at hfin
        · cases hfin
          rfl
        · exact absurd hfin (by simp)
    have hpa2 : parseArgs (pre ++ "--compressed" :: post) =
        .ok ⟨ac, au, ah, true⟩ := by
      unfold parseArgs
      rw [runArgs_append]
      simp only [hpre]
      simp only [runArgs, hstep]
      simp only [hcomp]
      exact hfin2
    unfold contextOfTokens
    rw [hpa2]
    simp only
    simp only [hhf]
    rw [hctx]

/-- Witness for C7: adding `--compressed` to the scenario-1 command
right after the url changes nothing. -/
theorem c7_compressed_noop_witness :
    contextOfTokens (["curl", "'http://example.com'"] ++
        "--compressed" :: ["-H", "'Accept: text/html'"]) =
      .ok ⟨"http://example.com", [("Accept", "text/html")]⟩ :=
  c7_compressed_noop ["curl", "'http://example.com'"] ["-H", "'Accept: text/html'"]
    ⟨"http://example.com", [("Accept", "text/html")]⟩ (by decide) (by decide)
    (by decide)

/-- Replace the value stored at key `k` (the map part of an
`OrderedDict` assignment to an existing key). -/
def replaceVal (m : List (String × String)) (k v : String) :
    List (String × String) :=
  m.map (fun p => if p.1 = k then (k, v) else p)

/-- The fold of `OrderedDict` assignments from an arbitrary accumulator. -/
def insertAllFrom (m : List (String × String)) (l : List (String × String)) :
    List (String × String) :=
  l.foldl (fun acc kv => odInsert acc kv.1 kv.2) m

theorem insertAll_eq_from (l : List (String × String)) :
    insertAll l = insertAllFrom [] l := rfl

theorem insertAllFrom_append (m : List (String × String))
    (l1 l2 : List (String × String)) :
    insertAllFrom m (l1 ++ l2) = insertAllFrom (insertAllFrom m l1) l2 :=
  List.foldl_append ..

theorem odInsert_not_mem {m : List (String × String)} {k : String}
    (h : k ∉ m.map Prod.fst) (v : String) :
    odInsert m k v = m ++ [(k, v)] := by
  unfold odInsert
  rw [if_neg]
  intro hc
  rcases List.any_eq_true.mp hc with ⟨p, hp, he⟩
  exact h (List.mem_map.mpr ⟨p, hp, of_decide_eq_true he⟩)

theorem odInsert_mem {m : List (String × String)} {k : String}
    (h : k ∈ m.map Prod.fst) (v : String) :
    odInsert m k v = replaceVal m k v := by
  unfold odInsert replaceVal
  rw [if_pos]
  rcases List.mem_map.mp h with ⟨p, hp, he⟩
  exact List.any_eq_true.mpr ⟨p, hp, decide_eq_true he⟩

theorem replaceVal_keys (m : List (String × String)) (k v : String) :
    (replaceVal m k v).map Prod.fst = m.map Prod.fst := by
  unfold replaceVal
  rw [List.map_map]
  apply List.map_congr_left
  intro p _
  by_cases h : p.1 = k
  · simp [h]
  · simp [h]

theorem replaceVal_not_mem {m : List (String × String)} {k : String}
    (h : k ∉ m.map Prod.fst) (v : String) : replaceVal m k v = m := by
  unfold replaceVal
  conv_rhs => rw [← List.map_id m]
  apply List.map_congr_left
  intro p hp
  rw [if_neg]
  · rfl
  · intro hc
    exact h (List.mem_map.mpr ⟨p, hp, hc⟩)

theorem keys_odInsert (m : List (String × String)) (k v : String) (x : String) :
    x ∈ (odInsert m k v).map Prod.fst ↔ x ∈ m.map Prod.fst ∨ x = k := by
  unfold odInsert
  split
  · next hmem =>
    rw [show ((m.map fun p => if p.1 = k then (k, v) else p) : List (String × String)) = replaceVal m k v from rfl, replaceVal_keys]
    constructor
    · exact Or.inl
    · intro h
      rcases h with h | h
      · exact h
      · rcases List.any_eq_true.mp hmem with ⟨p, hp, he⟩
        rw [h]
        exact List.mem_map.mpr ⟨p, hp, of_decide_eq_true he⟩
  · simp

theorem keys_insertAllFrom (l : List (String × String)) :
    ∀ (m : List (String × String)) (x : String),
      x ∈ (insertAllFrom m l).map Prod.fst ↔
        x ∈ m.map Prod.fst ∨ x ∈ l.map Prod.fst := by
  induction l with
  | nil =>
    intro m x
    simp [insertAllFrom]
  | cons kv rest ih =>
    intro m x
    rw [show insertAllFrom m (kv :: rest) =
      insertAllFrom (odInsert m kv.1 kv.2) rest from rfl]
    rw [ih]
    rw [keys_odInsert]
    simp [List.mem_cons, or_assoc]

theorem insertAllFrom_replaceVal (l : List (String × String)) :
    ∀ (m : List (String × String)) (k v : String), k ∉ l.map Prod.fst →
      insertAllFrom (replaceVal m k v) l = replaceVal (insertAllFrom m l) k v := by
  induction l with
  | nil =>
    intro m k v _
    rfl
  | cons kv rest ih =>
    intro m k v hk
    have hk1 : kv.1 ≠ k := by
      intro he
      exact hk (by rw [← he]; exact List.mem_map.mpr ⟨kv, List.mem_cons_self .., rfl⟩)
    have hk1s : k ≠ kv.1 := Ne.symm hk1
    have hkrest : k ∉ rest.map Prod.fst := by
      intro hc
      exact hk (by simp [hc])
    have hstep : odInsert (replaceVal m k v) kv.1 kv.2 =
        replaceVal (odInsert m kv.1 kv.2) k v := by
      by_cases hmem : kv.1 ∈ m.map Prod.fst
      · rw [odInsert_mem (by rw [replaceVal_keys]; exact hmem) kv.2,
          odInsert_mem hmem kv.2]
        unfold replaceVal
        rw [List.map_map, List.map_map]
        apply List.map_congr_left
        intro p _
        by_cases h1 : p.1 = k
        · simp [Function.comp, h1, hk1, hk1s]
        · by_cases h2 : p.1 = kv.1
          · simp [Function.comp, h1, h2, hk1, hk1s]
          · simp [Function.comp, h1, h2]
      · rw [odInsert_not_mem (by rw [replaceVal_keys]; exact hmem) kv.2,
          odInsert_not_mem hmem kv.2]
        unfold replaceVal
        rw [List.map_append]
        rw [show (m.map fun p => if p.1 = k then (k, v) else p) =
          replaceVal m k v from rfl]
        simp [hk1]
    rw [show insertAllFrom (replaceVal m k v) (kv :: rest) =
      insertAllFrom (odInsert (replaceVal m k v) kv.1 kv.2) rest from rfl]
    rw [hstep]
    rw [ih _ k v hkrest]
    rfl

/-- A key assigned twice into the ordered mapping ends with the later
value at the first occurrence's position: the fold of `OrderedDict`
assignments equals the one in which the later value already sat at the
first occurrence and the second occurrence is gone (replace-in-place,
not re-insertion at the end). -/
theorem insertAll_middle_replace (l1 l2 l3 : List (String × String))
    (k v1 v2 : String)
    (h1 : k ∉ l1.map Prod.fst) (h2 : k ∉ l2.map Prod.fst) :
    insertAll (l1 ++ (k, v1) :: (l2 ++ (k, v2) :: l3)) =
      insertAll (l1 ++ (k, v2) :: (l2 ++ l3)) := by
  have hA1 : k ∉ (insertAllFrom [] l1).map Prod.fst := by
    intro hc
    rcases (keys_insertAllFrom l1 [] k).mp hc with hc2 | hc2
    · simp at hc2
    · exact h1 hc2
  rw [insertAll_eq_from, insertAll_eq_from]
  rw [insertAllFrom_append, insertAllFrom_append]
  rw [show insertAllFrom (insertAllFrom [] l1) ((k, v1) :: (l2 ++ (k, v2) :: l3)) =
    insertAllFrom (odInsert (insertAllFrom [] l1) k v1) (l2 ++ (k, v2) :: l3) from rfl]
  rw [show insertAllFrom (insertAllFrom [] l1) ((k, v2) :: (l2 ++ l3)) =
    insertAllFrom (odInsert (insertAllFrom [] l1) k v2) (l2 ++ l3) from rfl]
  rw [odInsert_not_mem hA1 v1, odInsert_not_mem hA1 v2]
  rw [insertAllFrom_append, insertAllFrom_append]
  have hrepl : insertAllFrom [] l1 ++ [(k, v2)] =
      replaceVal (insertAllFrom [] l1 ++ [(k, v1)]) k v2 := by
    unfold replaceVal
    rw [List.map_append]
    rw [show ((insertAllFrom [] l1).map fun p => if p.1 = k then (k, v2) else p) =
      replaceVal (insertAllFrom [] l1) k v2 from rfl]
    rw [replaceVal_not_mem hA1]
    simp
  rw [hrepl]
  rw [insertAllFrom_replaceVal l2 _ k v2 h2]
  rw [show insertAllFrom (insertAllFrom (insertAllFrom [] l1 ++ [(k, v1)]) l2)
      ((k, v2) :: l3) =
    insertAllFrom (odInsert (insertAllFrom (insertAllFrom [] l1 ++ [(k, v1)]) l2)
      k v2) l3 from rfl]
  have hkA2 : k ∈
      (insertAllFrom (insertAllFrom [] l1 ++ [(k, v1)]) l2).map Prod.fst := by
    rw [keys_insertAllFrom]
    left
    rw [List.map_append]
    simp
  rw [odInsert_mem hkA2 v2]

/-- The processed, retained header pairs of a header-token list: the
per-iteration results of the source loop in `parse_context` (colon
split, quote strip, value quoting, exclusion filter), before the
ordered-map insertion. -/
def retained : List String → Except ParseError (List (String × String))
  | [] => .ok []
  | h :: rest =>
    match processHeader h with
    | .error e => .error e
    | .ok kv =>
      match retained rest with
      | .error e => .error e
      | .ok l => .ok (if lowerStr kv.1 ∈ exclude_headers then l else kv :: l)

/-- The header loop of `parse_context` is exactly the fold of
`OrderedDict` assignments over the processed retained pairs. -/
theorem headerFoldAux_retained (hs : List String) :
    ∀ m, headerFoldAux m hs =
      match retained hs with
      | .error e => .error e
      | .ok l => .ok (insertAllFrom m l) := by
  induction hs with
  | nil =>
    intro m
    rfl
  | cons h rest ih =>
    intro m
    cases hph : processHeader h with
    | error e => simp only [headerFoldAux, retained, hph]
    | ok kv =>
      cases hr : retained rest with
      | error e =>
        simp only [headerFoldAux, retained, hph, hr, ih (insertStep m kv)]
      | ok l =>
        simp only [headerFoldAux, retained, hph, hr, ih (insertStep m kv)]
        unfold insertStep
        by_cases he : lowerStr kv.1 ∈ exclude_headers
        · rw [if_pos he, if_pos he]
        · rw [if_neg he, if_neg he]
          rfl

/-- The header map of a `ParsedContext` is the `OrderedDict` fold
`insertAll` of the retained pairs of its header tokens. -/
theorem headerFold_retained {hs : List String} {l : List (String × String)}
    (h : retained hs = .ok l) : headerFold hs = .ok (insertAll l) := by
  unfold headerFold
  rw [headerFoldAux_retained hs []]
  rw [h]
  rfl

/-- Retained pairs of concatenated header-token lists concatenate. -/
theorem retained_append (xs ys : List String) :
    ∀ lx ly, retained xs = .ok lx → retained ys = .ok ly →
      retained (xs ++ ys) = .ok (lx ++ ly) := by
  induction xs with
  | nil =>
    intro lx ly hx hy
    cases hx
    simpa using hy
  | cons h rest ih =>
    intro lx ly hx hy
    cases hph : processHeader h with
    | error e =>
      simp only [retained, hph] at hx
      exact absurd hx (by simp)
    | ok kv =>
      cases hr : retained rest with
      | error e =>
        simp only [retained, hph, hr] at hx
        exact absurd hx (by simp)
      | ok l =>
        simp only [retained, hph, hr] at hx
        cases hx
        have hr2 : retained (rest ++ ys) = .ok (l ++ ly) := ih l ly hr hy
        show retained (h :: (rest ++ ys)) = _
        simp only [retained, hph, hr2]
        by_cases he : lowerStr kv.1 ∈ exclude_headers
        · rw [if_pos he, if_pos he]
        · rw [if_neg he, if_neg he]
          rfl

theorem replaceVal_cons (pk pv kk v2 : String) (rest : List (String × String)) :
    replaceVal ((pk, pv) :: rest) kk v2 =
      (if pk = kk then (kk, v2) else (pk, pv)) :: replaceVal rest kk v2 := rfl

/-- Replacing the value at another key does not change a lookup. -/
theorem lookup_replaceVal (m : List (String × String)) (k kk v2 : String)
    (hne : k ≠ kk) :
    (replaceVal m kk v2).lookup k = m.lookup k := by
  induction m with
  | nil => rfl
  | cons p rest ih =>
    obtain ⟨pk, pv⟩ := p
    rw [replaceVal_cons]
    by_cases hp : pk = kk
    · rw [if_pos hp]
      rw [List.lookup_cons, List.lookup_cons]
      have hb1 : (k == kk) = false := by simp [hne]
      have hb2 : (k == pk) = false := by rw [hp]; exact hb1
      simp only [hb1, hb2]
      exact ih
    · rw [if_neg hp]
      rw [List.lookup_cons, List.lookup_cons]
      cases hbe : (k == pk) with
      | true => rfl
      | false => exact ih

/-- A key appended behind entries that do not carry it is found with its
appended value. -/
theorem lookup_append_self (m : List (String × String)) (k v : String)
    (h : k ∉ m.map Prod.fst) : (m ++ [(k, v)]).lookup k = some v := by
  rw [List.lookup_append]
  have hnone : m.lookup k = none := by
    rw [List.lookup_eq_none_iff]
    intro p hp
    rw [bne_iff_ne]
    intro he
    exact h (List.mem_map.mpr ⟨p, hp, he.symm⟩)
  rw [hnone, Option.none_or]
  exact List.lookup_cons_self

/-- Folding assignments of other keys preserves a lookup. -/
theorem lookup_insertAllFrom (l : List (String × String)) :
    ∀ (m : List (String × String)) (k v : String), k ∉ l.map Prod.fst →
      m.lookup k = some v → (insertAllFrom m l).lookup k = some v := by
  induction l with
  | nil =>
    intro m k v _ hm
    exact hm
  | cons kv rest ih =>
    intro m k v hk hm
    have hk1 : kv.1 ≠ k := by
      intro he
      exact hk (by rw [← he]; exact List.mem_map.mpr ⟨kv, List.mem_cons_self .., rfl⟩)
    have hkrest : k ∉ rest.map Prod.fst := by
      intro hc
      exact hk (by simp [hc])
    rw [show insertAllFrom m (kv :: rest) =
      insertAllFrom (odInsert m kv.1 kv.2) rest from rfl]
    apply ih _ k v hkrest
    by_cases hmem : kv.1 ∈ m.map Prod.fst
    · rw [odInsert_mem hmem kv.2]
      rw [lookup_replaceVal m k kv.1 kv.2 (Ne.symm hk1)]
      exact hm
    · rw [odInsert_not_mem hmem kv.2]
      rw [List.lookup_append]
      rw [hm]
      rfl

/-- C8: for every curl command that tokenizes and argparses successfully
and whose header tokens process to the same non-excluded name `k` at
exactly two positions (with values `v1` then `v2`), `parse_context`
returns the `ParsedContext` whose header map is the `OrderedDict` fold
with the later value `v2` already sitting at the first occurrence's
insertion position and the second occurrence gone — replace-in-place,
ordered-mapping assignment semantics, not re-insertion at the end — and
that map looks `k` up to the later value `v2`. -/
theorem c8_duplicate_replace_in_place (cmd : String) (toks : List String)
    (a : CurlArgs) (hs1 hs2 hs3 : List String) (t1 t2 : String)
    (k v1 v2 : String) (l1 l2 l3 : List (String × String))
    (htok : shlexSplit (normalize_newlines cmd) = some toks)
    (hargs : parseArgs toks = .ok a)
    (hsplit : a.header = hs1 ++ t1 :: (hs2 ++ t2 :: hs3))
    (ht1 : processHeader t1 = .ok (k, v1))
    (ht2 : processHeader t2 = .ok (k, v2))
    (hkeep : lowerStr k ∉ exclude_headers)
    (hr1 : retained hs1 = .ok l1) (hr2 : retained hs2 = .ok l2)
    (hr3 : retained hs3 = .ok l3)
    (hk1 : k ∉ l1.map Prod.fst) (hk2 : k ∉ l2.map Prod.fst)
    (hk3 : k ∉ l3.map Prod.fst) :
    parse_context cmd =
        .ok ⟨stripUrlQuotes a.url, insertAll (l1 ++ (k, v2) :: (l2 ++ l3))⟩ ∧
      (insertAll (l1 ++ (k, v2) :: (l2 ++ l3))).lookup k = some v2 := by
  have hc3 : retained (t2 :: hs3) = .ok ((k, v2) :: l3) := by
    simp only [retained, ht2, hr3]
    rw [if_neg hkeep]
  have hc2 : retained (hs2 ++ t2 :: hs3) = .ok (l2 ++ (k, v2) :: l3) :=
    retained_append hs2 (t2 :: hs3) l2 ((k, v2) :: l3) hr2 hc3
  have hc1 : retained (t1 :: (hs2 ++ t2 :: hs3)) =
      .ok ((k, v1) :: (l2 ++ (k, v2) :: l3)) := by
    simp only [retained, ht1, hc2]
    rw [if_neg hkeep]
  have htot : retained (hs1 ++ t1 :: (hs2 ++ t2 :: hs3)) =
      .ok (l1 ++ (k, v1) :: (l2 ++ (k, v2) :: l3)) :=
    retained_append hs1 _ l1 _ hr1 hc1
  have hfold : headerFold a.header =
      .ok (insertAll (l1 ++ (k, v2) :: (l2 ++ l3))) := by
    rw [hsplit]
    rw [headerFold_retained htot]
    rw [insertAll_middle_replace l1 l2 l3 k v1 v2 hk1 hk2]
  constructor
  · simp only [parse_context, htok, contextOfTokens, hargs, hfold]
  · have hA1 : k ∉ (insertAllFrom [] l1).map Prod.fst := by
      intro hc
      rcases (keys_insertAllFrom l1 [] k).mp hc with hc2 | hc2
      · simp at hc2
      · exact hk1 hc2
    rw [insertAll_eq_from]
    rw [insertAllFrom_append]
    rw [show insertAllFrom (insertAllFrom [] l1) ((k, v2) :: (l2 ++ l3)) =
      insertAllFrom (odInsert (insertAllFrom [] l1) k v2) (l2 ++ l3) from rfl]
    rw [odInsert_not_mem hA1 v2]
    apply lookup_insertAllFrom (l2 ++ l3) _ k v2
    · intro hc
      rw [List.map_append, List.mem_append] at hc
      rcases hc with hc | hc
      · exact hk2 hc
      · exact hk3 hc
    · exact lookup_append_self (insertAllFrom [] l1) k v2 hA1

/-- Witness for C8: a curl command carrying the header `X` twice with an
`Accept` header in between parses to the map holding `X` at the first
position with the later value `b`. -/
theorem c8_duplicate_replace_in_place_witness :
    parse_context "curl 'http://example.com' -H 'X: a' -H 'Accept: 1' -H 'X: b'" =
        .ok ⟨"http://example.com", [("X", "b"), ("Accept", "1")]⟩ ∧
      ([("X", "b"), ("Accept", "1")] : List (String × String)).lookup "X" =
        some "b" := by
  have h := c8_duplicate_replace_in_place
    "curl 'http://example.com' -H 'X: a' -H 'Accept: 1' -H 'X: b'"
    ["curl", "'http://example.com'", "-H", "'X: a'", "-H", "'Accept: 1'",
      "-H", "'X: b'"]
    ⟨"curl", "'http://example.com'", ["'X: a'", "'Accept: 1'", "'X: b'"], false⟩
    [] ["'Accept: 1'"] [] "'X: a'" "'X: b'" "X" "a" "b" [] [("Accept", "1")] []
    (by decide) (by decide) (by decide) (by decide) (by decide) (by decide)
    (by decide) (by decide) (by decide) (by decide) (by decide) (by decide)
  constructor
  · rw [h.1]
    decide
  · decide
